import Mathlib

/-!
Verification of `multiplication_counter.py` against its specification.

The analyzer `count_unique_multiplication_results(n, m)` is embedded as a
fold over the list of index pairs visited by its two nested loops
(`for i in range(1, n+1): for j in range(i, m+1)`), acting on a state
holding the result matrix, the first-occurrence boolean matrix and the
set of seen results.  Matrices are embedded as total functions on
0-based indices, initialised to `0` / `false` like `np.zeros`.

The source computes products in `np.int32` (`result_matrix` is allocated
with `dtype=np.int32` and `results = i * j_range` multiplies into that
dtype), so a product wraps silently modulo `2^32` and is read back as a
signed value in `[-2^31, 2^31)`.  The embedding reproduces this: every
stored or seen value is `int32 (i * j) : ℤ`, the signed 32-bit wrap of
the true product.  Loop indices themselves are modelled exactly (they
are the values of `range(1, n+1)` and `np.arange(i, m+1)`, which
represent the indices faithfully for every table whose dimensions fit
in `int32`).
-/

/-- The mutable state of `count_unique_multiplication_results`:
`result_matrix` and `is_new_matrix` are 0-indexed (row, column) maps,
`seen_results` is the running set of products. -/
structure AnalyzerState where
  result_matrix : ℕ → ℕ → ℤ
  is_new_matrix : ℕ → ℕ → Bool
  seen_results : Finset ℤ

/-- `np.zeros((n, m))` for both matrices and the empty `set()`. -/
def initState : AnalyzerState :=
  { result_matrix := fun _ _ => 0
    is_new_matrix := fun _ _ => false
    seen_results := ∅ }

/-- The signed 32-bit value obtained by storing the natural number `x`
into an `np.int32`: wrap modulo `2^32`, read back in `[-2^31, 2^31)`. -/
def int32 (x : ℕ) : ℤ :=
  ((x : ℤ) + 2147483648) % 4294967296 - 2147483648

/-- Point update of a matrix embedded as a function. -/
def write2 (f : ℕ → ℕ → ℤ) (r c : ℕ) (v : ℤ) : ℕ → ℕ → ℤ :=
  fun r' c' => if r' = r ∧ c' = c then v else f r' c'

/-- Point update of a boolean matrix embedded as a function. -/
def writeBool (f : ℕ → ℕ → Bool) (r c : ℕ) (v : Bool) : ℕ → ℕ → Bool :=
  fun r' c' => if r' = r ∧ c' = c then v else f r' c'

/-- The body of the inner loop of `count_unique_multiplication_results`
at the pair `(i, j)`:
`result_matrix[i-1, j-1] = i*j`; `if j <= n: result_matrix[j-1, i-1] = i*j`;
`if result not in seen_results: is_new_matrix[i-1, j-1] = True; seen_results.add(result)`. -/
def visitCell (n : ℕ) (s : AnalyzerState) (p : ℕ × ℕ) : AnalyzerState :=
  let i := p.1
  let j := p.2
  let result := int32 (i * j)
  let afterDirect := write2 s.result_matrix (i - 1) (j - 1) result
  let afterMirror := if j ≤ n then write2 afterDirect (j - 1) (i - 1) result else afterDirect
  if result ∈ s.seen_results then
    { s with result_matrix := afterMirror }
  else
    { result_matrix := afterMirror
      is_new_matrix := writeBool s.is_new_matrix (i - 1) (j - 1) true
      seen_results := insert result s.seen_results }

/-- The pairs `(i, j)` visited by the nested loops, in traversal order:
`i` from `1` to `n` (outer), `j` from `i` to `m` (inner). -/
def visitedPairs (n m : ℕ) : List (ℕ × ℕ) :=
  (List.range' 1 n).flatMap fun i => (List.range' i (m + 1 - i)).map fun j => (i, j)

/-- Run the analyzer's loop from the freshly initialised state. -/
def runAnalyzer (n m : ℕ) : AnalyzerState :=
  (visitedPairs n m).foldl (visitCell n) initState

/-- `count_unique_multiplication_results(n, m)` returns
`(seen_results, len(seen_results), result_matrix, is_new_matrix)`. -/
def count_unique_multiplication_results (n m : ℕ) :
    Finset ℤ × ℕ × (ℕ → ℕ → ℤ) × (ℕ → ℕ → Bool) :=
  let s := runAnalyzer n m
  (s.seen_results, s.seen_results.card, s.result_matrix, s.is_new_matrix)

/-- The set of distinct products of the full `n × m` multiplication table,
written from the spec's glossary: values `i·j` with `i ∈ [1,n]`, `j ∈ [1,m]`,
counted once each. -/
def tableProducts (n m : ℕ) : Finset ℕ :=
  (Finset.range n ×ˢ Finset.range m).image fun p => (p.1 + 1) * (p.2 + 1)

/-- The stored (int32-wrapped) products of a list of index pairs, as a set. -/
def pairsProducts (L : List (ℕ × ℕ)) : Finset ℤ :=
  (L.map fun p => int32 (p.1 * p.2)).toFinset

/-- Cell `(r, c)` (0-indexed) has been written after processing the pairs
in `L`: either directly (pair `(r+1, c+1)` was visited) or by the mirror
step (pair `(c+1, r+1)` was visited and its inner index `r+1` is `≤ n`). -/
def writtenAt (L : List (ℕ × ℕ)) (n r c : ℕ) : Prop :=
  (r + 1, c + 1) ∈ L ∨ ((c + 1, r + 1) ∈ L ∧ r + 1 ≤ n)

/-- Loop invariant of the analyzer after processing the pairs in `L`. -/
structure LoopInv (n : ℕ) (L : List (ℕ × ℕ)) (s : AnalyzerState) : Prop where
  seen_eq : s.seen_results = pairsProducts L
  matrix_written : ∀ r c, writtenAt L n r c → s.result_matrix r c = int32 ((r + 1) * (c + 1))
  matrix_unwritten : ∀ r c, ¬ writtenAt L n r c → s.result_matrix r c = 0
  marked_mem : ∀ r c, s.is_new_matrix r c = true → (r + 1, c + 1) ∈ L
  marked_inj : ∀ r c r' c', s.is_new_matrix r c = true → s.is_new_matrix r' c' = true →
    int32 ((r + 1) * (c + 1)) = int32 ((r' + 1) * (c' + 1)) → r = r' ∧ c = c'
  seen_covered : ∀ v ∈ s.seen_results,
    ∃ r c, s.is_new_matrix r c = true ∧ int32 ((r + 1) * (c + 1)) = v
  marked_seen : ∀ r c, s.is_new_matrix r c = true →
    int32 ((r + 1) * (c + 1)) ∈ s.seen_results

/-- The cells of the `n × m` grid whose first-occurrence flag is true. -/
def trueCells (n m : ℕ) : Finset (ℕ × ℕ) :=
  (Finset.range n ×ˢ Finset.range m).filter
    fun p => (runAnalyzer n m).is_new_matrix p.1 p.2 = true

instance decWrittenAt (L : List (ℕ × ℕ)) (n r c : ℕ) : Decidable (writtenAt L n r c) :=
  inferInstanceAs (Decidable ((r + 1, c + 1) ∈ L ∨ ((c + 1, r + 1) ∈ L ∧ r + 1 ≤ n)))

/-- The cells of the `n × m` grid actually written by the traversal,
directly or by the mirror step. -/
def writtenCells (n m : ℕ) : Finset (ℕ × ℕ) :=
  (Finset.range n ×ˢ Finset.range m).filter
    fun p => writtenAt (visitedPairs n m) n p.1 p.2

/-- The distinct values among the written cells of the result matrix. -/
def writtenValues (n m : ℕ) : Finset ℤ :=
  (writtenCells n m).image fun p => (runAnalyzer n m).result_matrix p.1 p.2

/-- The two fill colours used by the renderer. -/
inductive CellColor where
  | red
  | white
deriving DecidableEq

/-- The renderer's cell-classification rule:
`color = 'red' if is_new_row[j] else 'white'`. -/
def cellColor (f : ℕ → ℕ → Bool) (i j : ℕ) : CellColor :=
  if f i j then CellColor.red else CellColor.white

/-- The cells of the `n × m` grid that the renderer fills with the "new" colour. -/
def redCells (n m : ℕ) (f : ℕ → ℕ → Bool) : Finset (ℕ × ℕ) :=
  (Finset.range n ×ˢ Finset.range m).filter fun p => cellColor f p.1 p.2 = CellColor.red

/-- Membership in the traversal: `(i, j)` is visited iff `1 ≤ i ≤ n` and `i ≤ j ≤ m`. -/
theorem mem_visitedPairs {n m i j : ℕ} :
    (i, j) ∈ visitedPairs n m ↔ 1 ≤ i ∧ i ≤ n ∧ i ≤ j ∧ j ≤ m := by
  unfold visitedPairs
  simp only [List.mem_flatMap, List.mem_map, List.mem_range'_1, Prod.mk.injEq]
  constructor
  · rintro ⟨a, ⟨ha1, ha2⟩, b, ⟨hb1, hb2⟩, rfl, rfl⟩
    omega
  · rintro ⟨h1, h2, h3, h4⟩
    exact ⟨i, by omega, j, by omega, rfl, rfl⟩

theorem write2_same (f : ℕ → ℕ → ℤ) (r c : ℕ) (v : ℤ) : write2 f r c v r c = v := by
  simp [write2]

theorem write2_other (f : ℕ → ℕ → ℤ) (r c : ℕ) (v : ℤ) (r' c' : ℕ) (h : ¬(r' = r ∧ c' = c)) :
    write2 f r c v r' c' = f r' c' := by
  simp only [write2, if_neg h]

theorem writeBool_same (f : ℕ → ℕ → Bool) (r c : ℕ) (v : Bool) : writeBool f r c v r c = v := by
  simp [writeBool]

theorem writeBool_other (f : ℕ → ℕ → Bool) (r c : ℕ) (v : Bool) (r' c' : ℕ)
    (h : ¬(r' = r ∧ c' = c)) : writeBool f r c v r' c' = f r' c' := by
  simp only [writeBool, if_neg h]

theorem visitCell_result_matrix (n : ℕ) (s : AnalyzerState) (p : ℕ × ℕ) :
    (visitCell n s p).result_matrix =
      if p.2 ≤ n then
        write2 (write2 s.result_matrix (p.1 - 1) (p.2 - 1) (int32 (p.1 * p.2)))
          (p.2 - 1) (p.1 - 1) (int32 (p.1 * p.2))
      else write2 s.result_matrix (p.1 - 1) (p.2 - 1) (int32 (p.1 * p.2)) := by
  unfold visitCell
  by_cases hs : int32 (p.1 * p.2) ∈ s.seen_results <;> by_cases hn : p.2 ≤ n <;> simp [hs, hn]

theorem visitCell_is_new (n : ℕ) (s : AnalyzerState) (p : ℕ × ℕ) :
    (visitCell n s p).is_new_matrix =
      if int32 (p.1 * p.2) ∈ s.seen_results then s.is_new_matrix
      else writeBool s.is_new_matrix (p.1 - 1) (p.2 - 1) true := by
  unfold visitCell
  by_cases hs : int32 (p.1 * p.2) ∈ s.seen_results <;> simp [hs]

theorem visitCell_seen (n : ℕ) (s : AnalyzerState) (p : ℕ × ℕ) :
    (visitCell n s p).seen_results =
      if int32 (p.1 * p.2) ∈ s.seen_results then s.seen_results
      else insert (int32 (p.1 * p.2)) s.seen_results := by
  unfold visitCell
  by_cases hs : int32 (p.1 * p.2) ∈ s.seen_results <;> simp [hs]

theorem mem_pairsProducts {L : List (ℕ × ℕ)} {v : ℤ} :
    v ∈ pairsProducts L ↔ ∃ p ∈ L, int32 (p.1 * p.2) = v := by
  simp [pairsProducts]

theorem pairsProducts_append_single (L : List (ℕ × ℕ)) (i j : ℕ) :
    pairsProducts (L ++ [(i, j)]) = insert (int32 (i * j)) (pairsProducts L) := by
  ext v
  simp [pairsProducts, List.mem_insert_iff, or_comm]

/-- Processing one more pair `(i, j)` with `1 ≤ i ≤ j` extends the written-cell
predicate by exactly the direct target and (conditionally) the mirror target. -/
theorem writtenAt_append_single {L : List (ℕ × ℕ)} {n i j : ℕ} (hi : 1 ≤ i) (hij : i ≤ j)
    (r c : ℕ) :
    writtenAt (L ++ [(i, j)]) n r c ↔
      writtenAt L n r c ∨ (r = i - 1 ∧ c = j - 1) ∨ (r = j - 1 ∧ c = i - 1 ∧ j ≤ n) := by
  unfold writtenAt
  simp only [List.mem_append, List.mem_singleton, Prod.mk.injEq]
  constructor
  · rintro ((hm | ⟨he1, he2⟩) | ⟨hm2 | ⟨he1, he2⟩, hn'⟩)
    · exact Or.inl (Or.inl hm)
    · exact Or.inr (Or.inl ⟨by omega, by omega⟩)
    · exact Or.inl (Or.inr ⟨hm2, hn'⟩)
    · exact Or.inr (Or.inr ⟨by omega, by omega, by omega⟩)
  · rintro ((hm | ⟨hm, hn'⟩) | ⟨h1, h2⟩ | ⟨h1, h2, h3⟩)
    · exact Or.inl (Or.inl hm)
    · exact Or.inr ⟨Or.inl hm, hn'⟩
    · exact Or.inl (Or.inr ⟨by omega, by omega⟩)
    · exact Or.inr ⟨Or.inr ⟨by omega, by omega⟩, by omega⟩

/-- One loop iteration preserves the invariant, with the processed pair
appended to the history. -/
theorem loopInv_step {n : ℕ} {L : List (ℕ × ℕ)} {s : AnalyzerState} {p : ℕ × ℕ}
    (hp1 : 1 ≤ p.1) (hp2 : p.1 ≤ p.2) (h : LoopInv n L s) :
    LoopInv n (L ++ [p]) (visitCell n s p) := by
  obtain ⟨i, j⟩ := p
  simp only at hp1 hp2
  have hj : 1 ≤ j := le_trans hp1 hp2
  have e1 : i - 1 + 1 = i := by omega
  have e2 : j - 1 + 1 = j := by omega
  -- evaluation of the result matrix at the two write targets and elsewhere
  have Mdirect : (visitCell n s (i, j)).result_matrix (i - 1) (j - 1) = int32 (i * j) := by
    rw [visitCell_result_matrix]
    by_cases hn : j ≤ n
    · simp only [hn, if_true]
      by_cases hc : i - 1 = j - 1 ∧ j - 1 = i - 1
      · simp only [write2, if_pos hc]
      · rw [write2_other _ _ _ _ _ _ hc, write2_same]
    · simp only [hn, if_false]
      exact write2_same _ _ _ _
  have Mmirror : j ≤ n →
      (visitCell n s (i, j)).result_matrix (j - 1) (i - 1) = int32 (i * j) := by
    intro hn
    rw [visitCell_result_matrix]
    simp only [hn, if_true]
    exact write2_same _ _ _ _
  have Mold : ∀ r c, ¬(r = i - 1 ∧ c = j - 1) → ¬(r = j - 1 ∧ c = i - 1 ∧ j ≤ n) →
      (visitCell n s (i, j)).result_matrix r c = s.result_matrix r c := by
    intro r c hd hm
    rw [visitCell_result_matrix]
    by_cases hn : j ≤ n
    · simp only [hn, if_true]
      rw [write2_other _ _ _ _ _ _ (by tauto), write2_other _ _ _ _ _ _ hd]
    · simp only [hn, if_false]
      exact write2_other _ _ _ _ _ _ hd
  refine ⟨?_, ?_, ?_, ?_, ?_, ?_, ?_⟩
  · -- seen_eq
    rw [visitCell_seen, pairsProducts_append_single, ← h.seen_eq]
    by_cases hs : int32 (i * j) ∈ s.seen_results
    · simp only [hs, if_true]
      exact (Finset.insert_eq_self.mpr hs).symm
    · simp only [hs, if_false]
  · -- matrix_written
    intro r c hw
    rw [writtenAt_append_single hp1 hp2] at hw
    by_cases hd : r = i - 1 ∧ c = j - 1
    · obtain ⟨rfl, rfl⟩ := hd
      rw [e1, e2, Mdirect]
    · by_cases hm : r = j - 1 ∧ c = i - 1 ∧ j ≤ n
      · obtain ⟨rfl, rfl, hn'⟩ := hm
        rw [e1, e2, Mmirror hn', mul_comm]
      · rw [Mold r c hd hm]
        rcases hw with hw | hw | hw
        · exact h.matrix_written r c hw
        · exact absurd hw hd
        · exact absurd hw hm
  · -- matrix_unwritten
    intro r c hnw
    rw [writtenAt_append_single hp1 hp2] at hnw
    have h1 : ¬ writtenAt L n r c := fun hh => hnw (Or.inl hh)
    have h2 : ¬(r = i - 1 ∧ c = j - 1) := fun hh => hnw (Or.inr (Or.inl hh))
    have h3 : ¬(r = j - 1 ∧ c = i - 1 ∧ j ≤ n) := fun hh => hnw (Or.inr (Or.inr hh))
    rw [Mold r c h2 h3]
    exact h.matrix_unwritten r c h1
  · -- marked_mem
    intro r c hrc
    rw [visitCell_is_new] at hrc
    by_cases hs : int32 (i * j) ∈ s.seen_results
    · rw [if_pos hs] at hrc
      exact List.mem_append_left _ (h.marked_mem r c hrc)
    · rw [if_neg hs] at hrc
      by_cases hd : r = i - 1 ∧ c = j - 1
      · obtain ⟨rfl, rfl⟩ := hd
        rw [e1, e2]
        exact List.mem_append_right _ (List.mem_singleton.mpr rfl)
      · rw [writeBool_other _ _ _ _ _ _ hd] at hrc
        exact List.mem_append_left _ (h.marked_mem r c hrc)
  · -- marked_inj
    intro r c r' c' h1 h2 hprod
    rw [visitCell_is_new] at h1 h2
    by_cases hs : int32 (i * j) ∈ s.seen_results
    · rw [if_pos hs] at h1 h2
      exact h.marked_inj r c r' c' h1 h2 hprod
    · rw [if_neg hs] at h1 h2
      by_cases hd1 : r = i - 1 ∧ c = j - 1
      · by_cases hd2 : r' = i - 1 ∧ c' = j - 1
        · exact ⟨by omega, by omega⟩
        · rw [writeBool_other _ _ _ _ _ _ hd2] at h2
          obtain ⟨rfl, rfl⟩ := hd1
          rw [e1, e2] at hprod
          have hmem2 := h.marked_seen r' c' h2
          rw [← hprod] at hmem2
          exact absurd hmem2 hs
      · rw [writeBool_other _ _ _ _ _ _ hd1] at h1
        by_cases hd2 : r' = i - 1 ∧ c' = j - 1
        · obtain ⟨rfl, rfl⟩ := hd2
          rw [e1, e2] at hprod
          have hmem2 := h.marked_seen r c h1
          rw [hprod] at hmem2
          exact absurd hmem2 hs
        · rw [writeBool_other _ _ _ _ _ _ hd2] at h2
          exact h.marked_inj r c r' c' h1 h2 hprod
  · -- seen_covered
    intro v hv
    rw [visitCell_seen] at hv
    have hnew : ∀ r c, s.is_new_matrix r c = true →
        (visitCell n s (i, j)).is_new_matrix r c = true := by
      intro r c hrc
      rw [visitCell_is_new]
      by_cases hs : int32 (i * j) ∈ s.seen_results
      · rw [if_pos hs]; exact hrc
      · rw [if_neg hs]
        by_cases hd : r = i - 1 ∧ c = j - 1
        · obtain ⟨rfl, rfl⟩ := hd
          exact writeBool_same _ _ _ _
        · rw [writeBool_other _ _ _ _ _ _ hd]; exact hrc
    by_cases hs : int32 (i * j) ∈ s.seen_results
    · rw [if_pos hs] at hv
      obtain ⟨r, c, hrc, hprod⟩ := h.seen_covered v hv
      exact ⟨r, c, hnew r c hrc, hprod⟩
    · rw [if_neg hs] at hv
      rcases Finset.mem_insert.mp hv with hveq | hv
      · refine ⟨i - 1, j - 1, ?_, ?_⟩
        · rw [visitCell_is_new, if_neg hs]
          exact writeBool_same _ _ _ _
        · rw [e1, e2, ← hveq]
      · obtain ⟨r, c, hrc, hprod⟩ := h.seen_covered v hv
        exact ⟨r, c, hnew r c hrc, hprod⟩
  · -- marked_seen
    intro r c hrc
    rw [visitCell_is_new] at hrc
    rw [visitCell_seen]
    by_cases hs : int32 (i * j) ∈ s.seen_results
    · rw [if_pos hs] at hrc ⊢
      exact h.marked_seen r c hrc
    · rw [if_neg hs] at hrc
      rw [if_neg hs]
      by_cases hd : r = i - 1 ∧ c = j - 1
      · obtain ⟨rfl, rfl⟩ := hd
        rw [e1, e2]
        exact Finset.mem_insert_self _ _
      · rw [writeBool_other _ _ _ _ _ _ hd] at hrc
        exact Finset.mem_insert_of_mem (h.marked_seen r c hrc)

/-- Folding the loop body over a list of well-formed pairs preserves the
invariant, appending the processed pairs to the history. -/
theorem loopInv_foldl {n : ℕ} (T : List (ℕ × ℕ)) :
    ∀ L s, (∀ p ∈ T, 1 ≤ p.1 ∧ p.1 ≤ p.2) → LoopInv n L s →
      LoopInv n (L ++ T) (T.foldl (visitCell n) s) := by
  induction T with
  | nil => intro L s _ h; simpa using h
  | cons p T ih =>
    intro L s hb h
    simp only [List.foldl_cons]
    have hp := hb p (List.mem_cons_self p T)
    have step : LoopInv n (L ++ [p]) (visitCell n s p) := loopInv_step hp.1 hp.2 h
    have := ih (L ++ [p]) (visitCell n s p) (fun q hq => hb q (List.mem_cons_of_mem p hq)) step
    simpa [List.append_assoc] using this

/-- The freshly initialised state satisfies the invariant for the empty history. -/
theorem loopInv_initState (n : ℕ) : LoopInv n [] initState := by
  refine ⟨?_, ?_, ?_, ?_, ?_, ?_, ?_⟩ <;>
    simp [initState, pairsProducts, writtenAt]

/-- The final analyzer state satisfies the loop invariant for the full traversal. -/
theorem loopInv_runAnalyzer (n m : ℕ) : LoopInv n (visitedPairs n m) (runAnalyzer n m) := by
  have hb : ∀ p ∈ visitedPairs n m, 1 ≤ p.1 ∧ p.1 ≤ p.2 := by
    intro p hp
    obtain ⟨i, j⟩ := p
    have := mem_visitedPairs.mp hp
    exact ⟨this.1, this.2.2.1⟩
  have := loopInv_foldl (visitedPairs n m) [] initState hb (loopInv_initState n)
  simpa using this

/-- The seen set of the analyzer is exactly the set of stored products of
visited pairs. -/
theorem seen_results_eq (n m : ℕ) :
    (runAnalyzer n m).seen_results = pairsProducts (visitedPairs n m) :=
  (loopInv_runAnalyzer n m).seen_eq

/-- Membership in the final seen set: `v` was seen iff some visited pair's
stored (int32) product equals it. -/
theorem mem_seen_results {n m : ℕ} {v : ℤ} :
    v ∈ (runAnalyzer n m).seen_results ↔
      ∃ i j, 1 ≤ i ∧ i ≤ n ∧ i ≤ j ∧ j ≤ m ∧ int32 (i * j) = v := by
  rw [seen_results_eq, mem_pairsProducts]
  constructor
  · rintro ⟨⟨i, j⟩, hmem, rfl⟩
    have := mem_visitedPairs.mp hmem
    exact ⟨i, j, this.1, this.2.1, this.2.2.1, this.2.2.2, rfl⟩
  · rintro ⟨i, j, h1, h2, h3, h4, rfl⟩
    exact ⟨(i, j), mem_visitedPairs.mpr ⟨h1, h2, h3, h4⟩, rfl⟩

/-- Value of a directly-written cell: if `(i, j)` is visited then the 0-indexed
cell `(i-1, j-1)` holds the stored product `int32 (i·j)`. -/
theorem result_matrix_direct {n m i j : ℕ} (hmem : (i, j) ∈ visitedPairs n m) :
    (runAnalyzer n m).result_matrix (i - 1) (j - 1) = int32 (i * j) := by
  obtain ⟨h1, h2, h3, h4⟩ := mem_visitedPairs.mp hmem
  have e1 : i - 1 + 1 = i := by omega
  have e2 : j - 1 + 1 = j := by omega
  have := (loopInv_runAnalyzer n m).matrix_written (i - 1) (j - 1)
    (Or.inl (by rw [e1, e2]; exact hmem))
  rw [e1, e2] at this
  exact this

/-- Value of a mirrored cell: if `(i, j)` is visited and `j ≤ n` then the
0-indexed cell `(j-1, i-1)` holds the stored product `int32 (i·j)`. -/
theorem result_matrix_mirror {n m i j : ℕ} (hmem : (i, j) ∈ visitedPairs n m) (hjn : j ≤ n) :
    (runAnalyzer n m).result_matrix (j - 1) (i - 1) = int32 (i * j) := by
  obtain ⟨h1, h2, h3, h4⟩ := mem_visitedPairs.mp hmem
  have e1 : i - 1 + 1 = i := by omega
  have e2 : j - 1 + 1 = j := by omega
  have := (loopInv_runAnalyzer n m).matrix_written (j - 1) (i - 1)
    (Or.inr ⟨by rw [e1, e2]; exact hmem, by omega⟩)
  rw [e1, e2, mul_comm] at this
  exact this

/-- Membership in the spec-side distinct-product set of the full table. -/
theorem mem_tableProducts {n m v : ℕ} :
    v ∈ tableProducts n m ↔ ∃ a b, a < n ∧ b < m ∧ (a + 1) * (b + 1) = v := by
  simp only [tableProducts, Finset.mem_image, Finset.mem_product, Finset.mem_range, Prod.exists]
  constructor
  · rintro ⟨a, b, ⟨ha, hb⟩, rfl⟩
    exact ⟨a, b, ha, hb, rfl⟩
  · rintro ⟨a, b, ha, hb, rfl⟩
    exact ⟨a, b, ⟨ha, hb⟩, rfl⟩

/-- A marked first-occurrence cell lies inside the grid and on or above the diagonal. -/
theorem is_new_bounds {n m r c : ℕ} (h : (runAnalyzer n m).is_new_matrix r c = true) :
    r < n ∧ c < m ∧ r ≤ c := by
  have := mem_visitedPairs.mp ((loopInv_runAnalyzer n m).marked_mem r c h)
  omega

/-- The stored products of the marked cells are exactly the seen results. -/
theorem trueCells_image (n m : ℕ) :
    (trueCells n m).image (fun p => int32 ((p.1 + 1) * (p.2 + 1)))
      = (runAnalyzer n m).seen_results := by
  ext v
  simp only [Finset.mem_image, trueCells, Finset.mem_filter, Finset.mem_product,
    Finset.mem_range, Prod.exists]
  constructor
  · rintro ⟨r, c, ⟨_, hmark⟩, rfl⟩
    exact (loopInv_runAnalyzer n m).marked_seen r c hmark
  · intro hv
    obtain ⟨r, c, hmark, hprod⟩ := (loopInv_runAnalyzer n m).seen_covered v hv
    have hb := is_new_bounds hmark
    exact ⟨r, c, ⟨⟨hb.1, hb.2.1⟩, hmark⟩, hprod⟩

/-- The number of marked cells equals the number of seen results. -/
theorem trueCells_card (n m : ℕ) :
    (trueCells n m).card = (runAnalyzer n m).seen_results.card := by
  rw [← trueCells_image n m]
  refine (Finset.card_image_of_injOn ?_).symm
  rintro ⟨r, c⟩ hp ⟨r', c'⟩ hq hprod
  simp only [trueCells, Finset.mem_filter, Finset.mem_coe] at hp hq
  have := (loopInv_runAnalyzer n m).marked_inj r c r' c' hp.2 hq.2 hprod
  simp only [Prod.mk.injEq]
  exact this

/-- The distinct written values are exactly the seen results. -/
theorem writtenValues_eq_seen (n m : ℕ) :
    writtenValues n m = (runAnalyzer n m).seen_results := by
  ext v
  simp only [writtenValues, Finset.mem_image, writtenCells, Finset.mem_filter,
    Finset.mem_product, Finset.mem_range, Prod.exists]
  constructor
  · rintro ⟨r, c, ⟨⟨hr, hc⟩, hw⟩, rfl⟩
    rw [(loopInv_runAnalyzer n m).matrix_written r c hw]
    rcases hw with hd | ⟨hm2, _⟩
    · have := mem_visitedPairs.mp hd
      exact mem_seen_results.mpr ⟨r + 1, c + 1, this.1, this.2.1, this.2.2.1, this.2.2.2, rfl⟩
    · have := mem_visitedPairs.mp hm2
      exact mem_seen_results.mpr
        ⟨c + 1, r + 1, this.1, this.2.1, this.2.2.1, this.2.2.2, by rw [mul_comm]⟩
  · intro hv
    obtain ⟨i, j, h1, h2, h3, h4, rfl⟩ := mem_seen_results.mp hv
    have hmem : (i, j) ∈ visitedPairs n m := mem_visitedPairs.mpr ⟨h1, h2, h3, h4⟩
    refine ⟨i - 1, j - 1, ⟨⟨by omega, by omega⟩, Or.inl ?_⟩, result_matrix_direct hmem⟩
    have e1 : i - 1 + 1 = i := by omega
    have e2 : j - 1 + 1 = j := by omega
    rw [e1, e2]
    exact hmem

/-- On the analyzer's first-occurrence matrix, the renderer's red cells are
exactly the marked cells. -/
theorem redCells_eq_trueCells (n m : ℕ) :
    redCells n m (runAnalyzer n m).is_new_matrix = trueCells n m := by
  ext p
  simp only [redCells, trueCells, Finset.mem_filter]
  cases h : (runAnalyzer n m).is_new_matrix p.1 p.2 <;> simp [cellColor, h]

/-- Storing a natural number below `2^31` into an int32 is lossless. -/
theorem int32_of_lt {x : ℕ} (h : x < 2147483648) : int32 x = (x : ℤ) := by
  unfold int32
  have h1 : (0 : ℤ) ≤ (x : ℤ) + 2147483648 := by positivity
  have h2 : (x : ℤ) + 2147483648 < 4294967296 := by omega
  rw [Int.emod_eq_of_lt h1 h2]
  ring

/-- When `n ≤ m` and every product fits in int32, the seen set is the
distinct-product set of the full table (cast to the value type). -/
theorem seen_eq_tableProducts_cast {n m : ℕ} (hnm : n ≤ m) (hbound : n * m < 2147483648) :
    (runAnalyzer n m).seen_results = (tableProducts n m).image (fun x : ℕ => (x : ℤ)) := by
  ext v
  rw [mem_seen_results]
  simp only [Finset.mem_image, mem_tableProducts]
  constructor
  · rintro ⟨i, j, h1, h2, h3, h4, rfl⟩
    have hle : i * j ≤ n * m := Nat.mul_le_mul h2 h4
    refine ⟨i * j, ⟨i - 1, j - 1, by omega, by omega, ?_⟩, (int32_of_lt (by omega)).symm⟩
    have e1 : i - 1 + 1 = i := by omega
    have e2 : j - 1 + 1 = j := by omega
    rw [e1, e2]
  · rintro ⟨x, ⟨a, b, ha, hb, rfl⟩, rfl⟩
    have hle : (a + 1) * (b + 1) ≤ n * m := Nat.mul_le_mul (by omega) (by omega)
    rcases le_total (a + 1) (b + 1) with hab | hab
    · exact ⟨a + 1, b + 1, by omega, by omega, hab, by omega, int32_of_lt (by omega)⟩
    · refine ⟨b + 1, a + 1, by omega, by omega, hab, by omega, ?_⟩
      rw [mul_comm]
      exact int32_of_lt (by omega)

/-- The returned distinct set is the final seen set (by definition of the
return tuple). -/
theorem count_set_component (n m : ℕ) :
    (count_unique_multiplication_results n m).1 = (runAnalyzer n m).seen_results := rfl

/-- The returned product matrix is the final result matrix (by definition of
the return tuple). -/
theorem count_matrix_component (n m : ℕ) :
    (count_unique_multiplication_results n m).2.2.1 = (runAnalyzer n m).result_matrix := rfl

/-- Claim C1 as stated is false on the code: at `n = 3`, `m = 2` the analyzer
counts 3 distinct values (its traversal `i ∈ [1,3]`, `j ∈ [i,2]` never reaches
the products `3·1 = 3` and `3·2 = 6`), while the full `3 × 2` table has
5 distinct products `{1, 2, 3, 4, 6}`. -/
theorem C1_counterexample :
    (count_unique_multiplication_results 3 2).2.1 ≠ (tableProducts 3 2).card := by
  decide

/-- Claim C1, amended: for positive `n ≤ m` with `n·m < 2^31` (so every product
is stored in int32 without wrapping), the count returned by the analyzer equals
the number of distinct values `i·j` over all `i ∈ [1,n]`, `j ∈ [1,m]`.  Both
restrictions are necessary: for `n > m` the traversal misses products, and once
products exceed the int32 range distinct true products can wrap to the same
stored value. -/
theorem C1_count_eq_tableProducts (n m : ℕ) (_hn : 1 ≤ n) (_hm : 1 ≤ m) (hnm : n ≤ m)
    (hbound : n * m < 2147483648) :
    (count_unique_multiplication_results n m).2.1 = (tableProducts n m).card := by
  show (runAnalyzer n m).seen_results.card = (tableProducts n m).card
  rw [seen_eq_tableProducts_cast hnm hbound]
  exact Finset.card_image_of_injective _ Nat.cast_injective

theorem C1_witness :
    (count_unique_multiplication_results 2 4).2.1 = (tableProducts 2 4).card :=
  C1_count_eq_tableProducts 2 4 (by decide) (by decide) (by decide) (by decide)

/-- Claim C2: for positive `n`, `m`, the returned count equals the cardinality
of the returned distinct-product set, equals the number of true entries in the
first-occurrence matrix, and equals the number of distinct values among the
matrix cells actually written by the traversal.  This holds at every `n`, `m`,
wrapping or not, because the count, the set, the marks and the written values
are all driven by the same stored int32 products. -/
theorem C2_count_consistency (n m : ℕ) (_hn : 1 ≤ n) (_hm : 1 ≤ m) :
    (count_unique_multiplication_results n m).2.1 =
        (count_unique_multiplication_results n m).1.card ∧
      (count_unique_multiplication_results n m).2.1 = (trueCells n m).card ∧
      (count_unique_multiplication_results n m).2.1 = (writtenValues n m).card := by
  refine ⟨rfl, ?_, ?_⟩
  · exact (trueCells_card n m).symm
  · show (runAnalyzer n m).seen_results.card = (writtenValues n m).card
    rw [writtenValues_eq_seen]

theorem C2_witness :
    (count_unique_multiplication_results 2 4).2.1 =
        (count_unique_multiplication_results 2 4).1.card ∧
      (count_unique_multiplication_results 2 4).2.1 = (trueCells 2 4).card ∧
      (count_unique_multiplication_results 2 4).2.1 = (writtenValues 2 4).card :=
  C2_count_consistency 2 4 (by decide) (by decide)

/-- Claim C3 as stated is false on the code: at `n = 3`, `m = 2` the cell
`(3, 1)` (1-indexed; 0-indexed `(2, 0)`) is never written — the traversal never
visits `(1, 3)` because the inner loop stops at `m = 2` — so it keeps its
initial value `0` instead of `3·1 = 3`. -/
theorem C3_counterexample :
    (count_unique_multiplication_results 3 2).2.2.1 2 0 ≠ 3 * 1 := by
  decide

/-- Claim C3, amended: for positive `n ≤ m` with `n·m < 2^31`, every cell of
the returned product matrix is written by the traversal (directly or via the
mirror step) and its stored int32 value does not wrap, so the 0-indexed cell
`(i-1, j-1)` holds `i·j` for all `i ∈ [1,n]`, `j ∈ [1,m]`. -/
theorem C3_full_population (n m : ℕ) (_hn : 1 ≤ n) (_hm : 1 ≤ m) (hnm : n ≤ m)
    (hbound : n * m < 2147483648)
    (i j : ℕ) (hi1 : 1 ≤ i) (hi2 : i ≤ n) (hj1 : 1 ≤ j) (hj2 : j ≤ m) :
    (count_unique_multiplication_results n m).2.2.1 (i - 1) (j - 1) = ((i * j : ℕ) : ℤ) := by
  show (runAnalyzer n m).result_matrix (i - 1) (j - 1) = ((i * j : ℕ) : ℤ)
  have hle : i * j ≤ n * m := Nat.mul_le_mul hi2 hj2
  rcases le_total i j with hij | hij
  · rw [result_matrix_direct (mem_visitedPairs.mpr ⟨hi1, hi2, hij, hj2⟩)]
    exact int32_of_lt (by omega)
  · have hmem : (j, i) ∈ visitedPairs n m :=
      mem_visitedPairs.mpr ⟨hj1, by omega, hij, by omega⟩
    rw [result_matrix_mirror hmem hi2, mul_comm j i]
    exact int32_of_lt (by omega)

theorem C3_witness :
    (count_unique_multiplication_results 2 3).2.2.1 1 0 = ((2 * 1 : ℕ) : ℤ) :=
  C3_full_population 2 3 (by decide) (by decide) (by decide) (by decide) 2 1
    (by decide) (by decide) (by decide) (by decide)

/-- Claim C4 as stated is false on the code: products are stored as int32 and
wrap.  At `n = m = 46341` the cell `(46341, 46341)` stores
`int32 (46341²) = 46341² − 2^32`, a negative value, not `46341² = 2147488281`. -/
theorem C4_counterexample :
    (count_unique_multiplication_results 46341 46341).2.2.1 46340 46340 ≠
      ((46341 * 46341 : ℕ) : ℤ) := by
  have hmem : ((46341 : ℕ), (46341 : ℕ)) ∈ visitedPairs 46341 46341 :=
    mem_visitedPairs.mpr ⟨by omega, by omega, by omega, by omega⟩
  have h := result_matrix_direct hmem
  have e : (46341 : ℕ) - 1 = 46340 := by omega
  rw [e] at h
  rw [count_matrix_component, h]
  decide

/-- Claim C4, amended: for all `i, j ≤ min(n, m)` the two mirrored cells always
hold the same stored value, and whenever the product fits in int32
(`i·j < 2^31`) both equal `i·j`. -/
theorem C4_mirror_symmetry (n m i j : ℕ) (hi1 : 1 ≤ i) (hi2 : i ≤ min n m)
    (hj1 : 1 ≤ j) (hj2 : j ≤ min n m) :
    (count_unique_multiplication_results n m).2.2.1 (i - 1) (j - 1) =
        (count_unique_multiplication_results n m).2.2.1 (j - 1) (i - 1) ∧
      (i * j < 2147483648 →
        (count_unique_multiplication_results n m).2.2.1 (i - 1) (j - 1) = ((i * j : ℕ) : ℤ) ∧
          (count_unique_multiplication_results n m).2.2.1 (j - 1) (i - 1) = ((i * j : ℕ) : ℤ)) := by
  have hcells : (runAnalyzer n m).result_matrix (i - 1) (j - 1) = int32 (i * j) ∧
      (runAnalyzer n m).result_matrix (j - 1) (i - 1) = int32 (i * j) := by
    rcases le_total i j with hij | hij
    · have hmem : (i, j) ∈ visitedPairs n m :=
        mem_visitedPairs.mpr ⟨hi1, by omega, hij, by omega⟩
      exact ⟨result_matrix_direct hmem, result_matrix_mirror hmem (by omega)⟩
    · have hmem : (j, i) ∈ visitedPairs n m :=
        mem_visitedPairs.mpr ⟨hj1, by omega, hij, by omega⟩
      constructor
      · rw [result_matrix_mirror hmem (by omega), mul_comm j i]
      · rw [result_matrix_direct hmem, mul_comm j i]
  refine ⟨hcells.1.trans hcells.2.symm, fun hb => ?_⟩
  exact ⟨hcells.1.trans (int32_of_lt hb), hcells.2.trans (int32_of_lt hb)⟩

theorem C4_witness :
    (count_unique_multiplication_results 2 3).2.2.1 0 1 = ((1 * 2 : ℕ) : ℤ) ∧
      (count_unique_multiplication_results 2 3).2.2.1 1 0 = ((1 * 2 : ℕ) : ℤ) :=
  (C4_mirror_symmetry 2 3 1 2 (by decide) (by decide) (by decide) (by decide)).2 (by decide)

/-- Claim C5: a cell strictly below the diagonal (0-indexed row `r`, column `c`
with `c < r`, i.e. 1-indexed row > column) is never marked as a first
occurrence, for any `n`, `m`. -/
theorem C5_below_diagonal_never_first (n m r c : ℕ) (hrc : c < r) :
    (count_unique_multiplication_results n m).2.2.2 r c = false := by
  show (runAnalyzer n m).is_new_matrix r c = false
  cases hb : (runAnalyzer n m).is_new_matrix r c
  · rfl
  · exfalso
    have := is_new_bounds hb
    omega

theorem C5_witness : (count_unique_multiplication_results 3 3).2.2.2 1 0 = false :=
  C5_below_diagonal_never_first 3 3 1 0 (by decide)

/-- Claim C6: for `n = 3`, `m = 3` the analyzer returns the distinct set
`{1, 2, 3, 4, 6, 9}`, count `6`, and a first-occurrence matrix that is true
exactly at the 1-indexed cells `(1,1), (1,2), (1,3), (2,2), (2,3), (3,3)`
(0-indexed `(0,0), (0,1), (0,2), (1,1), (1,2), (2,2)`) and false at the other
three cells of the `3 × 3` grid. -/
theorem C6_example_3x3 :
    (count_unique_multiplication_results 3 3).1 = {1, 2, 3, 4, 6, 9} ∧
      (count_unique_multiplication_results 3 3).2.1 = 6 ∧
      (count_unique_multiplication_results 3 3).2.2.2 0 0 = true ∧
      (count_unique_multiplication_results 3 3).2.2.2 0 1 = true ∧
      (count_unique_multiplication_results 3 3).2.2.2 0 2 = true ∧
      (count_unique_multiplication_results 3 3).2.2.2 1 0 = false ∧
      (count_unique_multiplication_results 3 3).2.2.2 1 1 = true ∧
      (count_unique_multiplication_results 3 3).2.2.2 1 2 = true ∧
      (count_unique_multiplication_results 3 3).2.2.2 2 0 = false ∧
      (count_unique_multiplication_results 3 3).2.2.2 2 1 = false ∧
      (count_unique_multiplication_results 3 3).2.2.2 2 2 = true := by
  decide

/-- The product `65536 · 65536 = 2^32` wraps to the stored int32 value `0`. -/
theorem int32_two_pow_16_sq : int32 (65536 * 65536) = 0 := by
  norm_num [int32]

/-- Claim C7's per-value uniqueness clause, stated with true products, is false
on the code: at `n = m = 65536` the product `65536 · 65536 = 2^32` wraps to the
stored value `0`, which enters the returned distinct set, yet no grid cell's
true product `(r+1)·(c+1)` is `0`. -/
theorem C7_counterexample :
    (0 : ℤ) ∈ (count_unique_multiplication_results 65536 65536).1 ∧
      ¬ ∃ p : ℕ × ℕ,
          p ∈ redCells 65536 65536 (count_unique_multiplication_results 65536 65536).2.2.2 ∧
            (((p.1 + 1) * (p.2 + 1) : ℕ) : ℤ) = 0 := by
  constructor
  · rw [count_set_component, mem_seen_results]
    exact ⟨65536, 65536, by omega, by omega, by omega, by omega, int32_two_pow_16_sq⟩
  · rintro ⟨⟨a, b⟩, _, habs⟩
    have hnat : (a + 1) * (b + 1) = 0 := by exact_mod_cast habs
    rcases Nat.mul_eq_zero.mp hnat with h | h <;> omega

/-- Claim C7, amended: for positive `n`, `m`, the renderer colours a cell red
("new") iff the first-occurrence matrix is true there and white ("repeat")
otherwise; the number of red cells equals the returned count; and each value in
the returned distinct set has exactly one red cell whose stored int32 product
equals it (per distinct stored value, not per distinct true product: the two
differ once products wrap). -/
theorem C7_renderer_classification (n m : ℕ) (_hn : 1 ≤ n) (_hm : 1 ≤ m) :
    (∀ r c,
        (cellColor (count_unique_multiplication_results n m).2.2.2 r c = CellColor.red ↔
          (count_unique_multiplication_results n m).2.2.2 r c = true) ∧
        (cellColor (count_unique_multiplication_results n m).2.2.2 r c = CellColor.white ↔
          (count_unique_multiplication_results n m).2.2.2 r c = false)) ∧
      (redCells n m (count_unique_multiplication_results n m).2.2.2).card =
        (count_unique_multiplication_results n m).2.1 ∧
      (∀ v ∈ (count_unique_multiplication_results n m).1,
        ∃! p : ℕ × ℕ,
          p ∈ redCells n m (count_unique_multiplication_results n m).2.2.2 ∧
            int32 ((p.1 + 1) * (p.2 + 1)) = v) := by
  show (∀ r c,
      (cellColor (runAnalyzer n m).is_new_matrix r c = CellColor.red ↔
        (runAnalyzer n m).is_new_matrix r c = true) ∧
      (cellColor (runAnalyzer n m).is_new_matrix r c = CellColor.white ↔
        (runAnalyzer n m).is_new_matrix r c = false)) ∧
    (redCells n m (runAnalyzer n m).is_new_matrix).card = (runAnalyzer n m).seen_results.card ∧
    (∀ v ∈ (runAnalyzer n m).seen_results,
      ∃! p : ℕ × ℕ,
        p ∈ redCells n m (runAnalyzer n m).is_new_matrix ∧ int32 ((p.1 + 1) * (p.2 + 1)) = v)
  refine ⟨?_, ?_, ?_⟩
  · intro r c
    cases h : (runAnalyzer n m).is_new_matrix r c <;> simp [cellColor, h]
  · rw [redCells_eq_trueCells]
    exact trueCells_card n m
  · intro v hv
    obtain ⟨r, c, hmark, hprod⟩ := (loopInv_runAnalyzer n m).seen_covered v hv
    have hb := is_new_bounds hmark
    refine ⟨(r, c), ⟨?_, hprod⟩, ?_⟩
    · rw [redCells_eq_trueCells]
      exact Finset.mem_filter.mpr
        ⟨Finset.mem_product.mpr ⟨Finset.mem_range.mpr hb.1, Finset.mem_range.mpr hb.2.1⟩, hmark⟩
    · rintro ⟨r', c'⟩ ⟨hmem', hprod'⟩
      rw [redCells_eq_trueCells] at hmem'
      have hmark' := (Finset.mem_filter.mp hmem').2
      have := (loopInv_runAnalyzer n m).marked_inj r' c' r c hmark' hmark (by rw [hprod', hprod])
      simp only [Prod.mk.injEq]
      exact this

theorem C7_witness :
    ∃! p : ℕ × ℕ,
      p ∈ redCells 2 2 (count_unique_multiplication_results 2 2).2.2.2 ∧
        int32 ((p.1 + 1) * (p.2 + 1)) = 2 :=
  (C7_renderer_classification 2 2 (by decide) (by decide)).2.2 2 (by decide)

/-- Claim C8 asserts the analyzer rejects non-positive input with a descriptive
error before allocation.  The code performs no input validation at all;
evaluating it at the failing input `n = 0`, `m = 5` yields a normal result:
the empty distinct set, count `0`, and all-zero / all-false matrices. -/
theorem C8_no_validation_eval :
    (count_unique_multiplication_results 0 5).1 = ∅ ∧
      (count_unique_multiplication_results 0 5).2.1 = 0 ∧
      (count_unique_multiplication_results 0 5).2.2.1 0 0 = 0 ∧
      (count_unique_multiplication_results 0 5).2.2.2 0 0 = false := by
  decide

/-- Claim C9: the analyzer's result depends only on the inputs `(n, m)`; two
calls with equal inputs return identical distinct sets, counts, and
element-wise identical product and first-occurrence matrices.  In the
embedding the analyzer allocates all of its state (`result_matrix`,
`is_new_matrix`, `seen_results`) locally per call, so it is a pure function
of `(n, m)`. -/
theorem C9_deterministic (n m n' m' : ℕ) (hn : n = n') (hm : m = m') :
    (count_unique_multiplication_results n m).1 =
        (count_unique_multiplication_results n' m').1 ∧
      (count_unique_multiplication_results n m).2.1 =
        (count_unique_multiplication_results n' m').2.1 ∧
      (∀ r c, (count_unique_multiplication_results n m).2.2.1 r c =
        (count_unique_multiplication_results n' m').2.2.1 r c) ∧
      (∀ r c, (count_unique_multiplication_results n m).2.2.2 r c =
        (count_unique_multiplication_results n' m').2.2.2 r c) := by
  subst hn
  subst hm
  exact ⟨rfl, rfl, fun r c => rfl, fun r c => rfl⟩

theorem C9_witness :
    (count_unique_multiplication_results 3 3).1 =
        (count_unique_multiplication_results 3 3).1 ∧
      (count_unique_multiplication_results 3 3).2.1 =
        (count_unique_multiplication_results 3 3).2.1 ∧
      (∀ r c, (count_unique_multiplication_results 3 3).2.2.1 r c =
        (count_unique_multiplication_results 3 3).2.2.1 r c) ∧
      (∀ r c, (count_unique_multiplication_results 3 3).2.2.2 r c =
        (count_unique_multiplication_results 3 3).2.2.2 r c) :=
  C9_deterministic 3 3 3 3 rfl rfl

/-- Claim C10: every matrix access of the analyzer is in bounds.  For every
visited pair `(i, j)` the direct write targets row `i-1 < n` and column
`j-1 < m`; the mirror write, which only happens under its guard `j ≤ n`,
targets row `j-1 < n`; and the mirror column `i-1 < m` holds because the
loop body only runs when `i ≤ j ≤ m`. -/
theorem C10_writes_in_bounds (n m : ℕ) (_hn : 1 ≤ n) (_hm : 1 ≤ m) (i j : ℕ)
    (hmem : (i, j) ∈ visitedPairs n m) :
    (i - 1 < n ∧ j - 1 < m) ∧ (j ≤ n → j - 1 < n) ∧ i - 1 < m := by
  have := mem_visitedPairs.mp hmem
  omega

theorem C10_witness :
    ((1 : ℕ) - 1 < 2 ∧ (2 : ℕ) - 1 < 3) ∧ ((2 : ℕ) ≤ 2 → (2 : ℕ) - 1 < 2) ∧ (1 : ℕ) - 1 < 3 :=
  C10_writes_in_bounds 2 3 (by decide) (by decide) 1 2 (by decide)
